import Mathlib

/-!
Verification of the RimDefs XML-to-JSON builder (`tools/rimdefs_build.py`).

This file shallowly embeds the scanning-and-extraction pipeline of the
builder and proves the specified properties about it.

Modelling conventions:
- Filesystem paths (`pathlib.Path`) are modelled as lists of path segments,
  root first.  `Path.resolve` is the identity on this representation, and
  `child.relative_to(ancestor)` succeeds exactly when `ancestor`'s segment
  list is a prefix of `child`'s.
- Python strings are Lean `String`s.  Because several core Lean string
  operations are byte-position based, the Python primitives used by the
  builder (`str.lower`, `str.strip`, `str.endswith`, `str.startswith`,
  slicing, `<` on strings) are defined here over the character list
  `String.data`, which matches Python's code-point semantics.
- XML documents (`xml.etree.ElementTree`) are modelled by the mutual
  inductive `XElem`/`XKids`.  Non-element nodes (comments, processing
  instructions, whose `.tag` is not a `str`) are omitted from the model:
  every builder operation filters them out (`isinstance(ch.tag, str)`),
  matches them against string tags, or both, so they are invisible to all
  modelled behaviour.
- Python dicts are insertion-ordered association lists; Python sets of
  strings are duplicate-free lists.
-/

/-- Python `str.lower()`: code-point wise lowercasing. -/
def pyLower (s : String) : String := String.mk (s.data.map Char.toLower)

/-- Python `str.strip()` on a character list: drop whitespace from both ends. -/
def stripChars (l : List Char) : List Char :=
  ((l.dropWhile Char.isWhitespace).reverse.dropWhile Char.isWhitespace).reverse

/-- Python `str.strip()`. -/
def pyStrip (s : String) : String := String.mk (stripChars s.data)

/-- Python `str.endswith(suffix)`. -/
def pyEndsWith (s suffix : String) : Bool := suffix.data.isSuffixOf s.data

/-- Python `str.startswith(p)`. -/
def pyStartsWith (s p : String) : Bool := p.data.isPrefixOf s.data

/-- Python `<` on strings: lexicographic comparison by code point; this is
the `≤` version used to model `sorted`. -/
def lexLe : List Char → List Char → Bool
  | [], _ => true
  | _ :: _, [] => false
  | x :: xs, y :: ys =>
      if x.val < y.val then true
      else if y.val < x.val then false
      else lexLe xs ys

/-- Python `s1 <= s2` on strings. -/
def pyStrLe (a b : String) : Bool := lexLe a.data b.data

/-- A filesystem path, as the list of its segments from the root. -/
abbrev FsPath := List String

/-- `Path.as_posix()`: join the segments with slashes (used only as a sort
key, mirroring `p.as_posix().lower()`). -/
def pathStr (p : FsPath) : String :=
  match p with
  | [] => ""
  | s :: rest => rest.foldl (fun acc seg => acc ++ "/" ++ seg) s

/-- Source `is_within(child, ancestor)`: `child.resolve().relative_to(ancestor.resolve())`
succeeds (paths being already resolved, this is prefix containment; note that
it is reflexive, as in Python). -/
def is_within (child ancestor : FsPath) : Bool := ancestor.isPrefixOf child

/-- Source `add_mod_root(mod_roots, candidate)`: if any existing root
contains the candidate the set is returned unchanged (the existing root
dominates and the loop returns early); otherwise every existing root
contained in the candidate is removed and the candidate is added.  The
Python set is modelled as a duplicate-free list. -/
def add_mod_root (mod_roots : List FsPath) (candidate : FsPath) : List FsPath :=
  if mod_roots.any (fun r => is_within candidate r) then mod_roots
  else (mod_roots.filter (fun r => !is_within r candidate)) ++ [candidate]

/-- Source `discover_mod_dirs(scan_root)`: both discovery passes (anchor
`About/About.xml` files, then `Defs` directories) produce a sequence of
candidate roots which is folded through `add_mod_root` starting from the
empty set; the result is sorted by `p.as_posix().lower()`.  The candidate
sequence is abstracted as an input list; the two `rglob` passes only
determine which candidates appear. -/
def discover_mod_dirs (candidates : List FsPath) : List FsPath :=
  (candidates.foldl add_mod_root []).mergeSort
    (fun a b => pyStrLe (pyLower (pathStr a)) (pyLower (pathStr b)))

mutual
/-- An XML element as produced by `xml.etree.ElementTree`: tag, attributes
(in document order), text, and child elements.  See the module docstring for
why non-element child nodes are omitted. -/
inductive XElem : Type where
  | mk (tag : String) (attrib : List (String × String)) (text : Option String) (children : XKids)
  deriving DecidableEq
inductive XKids : Type where
  | nil
  | cons (head : XElem) (tail : XKids)
  deriving DecidableEq
end

def XElem.tag : XElem → String
  | .mk t _ _ _ => t

def XElem.attrib : XElem → List (String × String)
  | .mk _ a _ _ => a

def XElem.text : XElem → Option String
  | .mk _ _ x _ => x

def XElem.children : XElem → XKids
  | .mk _ _ _ c => c

def XKids.toList : XKids → List XElem
  | .nil => []
  | .cons h t => h :: t.toList

/-- Convenience constructor for children lists in concrete examples. -/
def kidsOf : List XElem → XKids
  | [] => .nil
  | e :: rest => .cons e (kidsOf rest)

/-- The direct element children of an element: Python
`[ch for ch in list(elem) if isinstance(ch.tag, str)]`. -/
def kids (e : XElem) : List XElem := e.children.toList

/-- ElementTree `elem.find(name)` for a plain tag name: the first direct
child whose tag equals the name exactly (no namespace stripping). -/
def findChild (e : XElem) (name : String) : Option XElem :=
  (kids e).find? (fun c => c.tag == name)

/-- ElementTree `elem.attrib.get(key)`. -/
def attrOf (e : XElem) (key : String) : Option String :=
  List.lookup key e.attrib

/-- Source `_strip_ns(tag)`: trim an XML namespace, `\x7bns\x7dThingDef`
becomes `ThingDef`.  Python computes `tag.split("\x7d", 1)[1]` when the tag
starts with a brace: everything after the first closing brace.  (A tag
starting with a brace but containing no closing brace would raise in
Python; ElementTree never produces one, and the model returns the empty
string there.) -/
def strip_ns (tag : String) : String :=
  if pyStartsWith tag "\x7b" then
    String.mk ((tag.data.dropWhile (fun c => c != '\x7d')).drop 1)
  else tag

/-- Source `looks_like_def_tag(tag)`: the namespace-stripped tag ends with
`Def`, `DefBase`, or `RulePackDef`. -/
def looks_like_def_tag (tag : String) : Bool :=
  let t := strip_ns tag
  pyEndsWith t "Def" || pyEndsWith t "DefBase" || pyEndsWith t "RulePackDef"

/-- Source `first_text(el)`: `None` if the element is absent or has no
text; otherwise the stripped text if non-blank, else `None`. -/
def first_text (el : Option XElem) : Option String :=
  match el with
  | none => none
  | some e =>
      match e.text with
      | none => none
      | some t =>
          let s := pyStrip t
          if s == "" then none else some s

/-- Source `extract_def_name(elem)`: the stripped text of the `defName`
child if non-blank, else the stripped `Name` attribute if non-blank, else
`None`. -/
def extract_def_name (e : XElem) : Option String :=
  match first_text (findChild e "defName") with
  | some dn => some dn
  | none =>
      match attrOf e "Name" with
      | some nm => if nm == "" || pyStrip nm == "" then none else some (pyStrip nm)
      | none => none

/-- The `defName` stored in an item record: `extract_def_name(def_elem) or ""`
(from `build_layer`). -/
def defNameOf (e : XElem) : String := (extract_def_name e).getD ""

/-- The member kinds inferred by the builder. -/
inductive Kind : Type where
  | Scalar
  | List
  | Map
  | Class
  deriving DecidableEq, Repr

/-- The rank used by `accumulate_meta`:
`order = \x7b"Scalar": 0, "List": 1, "Map": 2, "Class": 3\x7d`. -/
def kindOrder : Kind → Nat
  | .Scalar => 0
  | .List => 1
  | .Map => 2
  | .Class => 3

/-- The key/value pair test used inside `infer_member_kind`:
`e.find("key") is not None and e.find("value") is not None`. -/
def hasKV (e : XElem) : Bool :=
  (findChild e "key").isSome && (findChild e "value").isSome

/-- Source `infer_member_kind(member_elem)`: shallow classification of a
member element by its direct children (string-tagged children only).  The
branch order of the source is preserved: no children yields Scalar; all
children `li` yields Map when some `li` carries a key/value pair and List
otherwise; then a key/value pair on the member itself or on some child
yields Map; otherwise Class. -/
def infer_member_kind (member_elem : XElem) : Kind :=
  let children := kids member_elem
  if children.isEmpty then .Scalar
  else if children.all (fun ch => ch.tag == "li") then
    if children.any (fun c => hasKV c) then .Map else .List
  else if hasKV member_elem then .Map
  else if children.any (fun ch => hasKV ch) then .Map
  else .Class

/-- One member record in the schema registry: `\x7b"kind": ..., "type": "unknown"\x7d`. -/
structure MemberInfo : Type where
  kind : Kind
  type : String
  deriving DecidableEq, Repr

/-- One def-type record: `\x7b"fqcn": def_type, "members": \x7b...\x7d\x7d`. -/
structure DefTypeInfo : Type where
  fqcn : String
  members : List (String × MemberInfo)
  deriving DecidableEq, Repr

/-- The `meta["defTypes"]` registry: def-type name to its record.  The other
`meta` fields (`version`, `enums`, `types`) are never touched by
`accumulate_meta` and are not modelled. -/
abbrev Meta := List (String × DefTypeInfo)

/-- The per-member update inside `accumulate_meta`: when the name is
already present, overwrite only when the new kind ranks strictly higher
(`order.get(kind, 0) > order.get(prior["kind"], 0)`); a fresh name is
appended with the observed kind. -/
def updMember (members : List (String × MemberInfo)) (name : String) (kind : Kind) :
    List (String × MemberInfo) :=
  match List.lookup name members with
  | some prior =>
      if kindOrder prior.kind < kindOrder kind then
        members.map (fun kv => if kv.1 == name then (kv.1, ⟨kind, "unknown"⟩) else kv)
      else members
  | none => members ++ [(name, ⟨kind, "unknown"⟩)]

/-- Source `accumulate_meta(meta, def_type, elem)`: ensure a record for the
def type exists (`setdefault` appends a fresh one at the end), then fold the
per-member update over the element's direct string-tagged children, using
the namespace-stripped child tag as member name and the inferred kind. -/
def accumulate_meta (meta : Meta) (def_type : String) (elem : XElem) : Meta :=
  let step := fun ms (ch : XElem) => updMember ms (strip_ns ch.tag) (infer_member_kind ch)
  match List.lookup def_type meta with
  | some dt =>
      meta.map (fun kv =>
        if kv.1 == def_type then (kv.1, ⟨dt.fqcn, (kids elem).foldl step dt.members⟩) else kv)
  | none => meta ++ [(def_type, ⟨def_type, (kids elem).foldl step []⟩)]

/-- Lookup of a member's record across the registry. -/
def memberLookup (meta : Meta) (def_type name : String) : Option MemberInfo :=
  (List.lookup def_type meta).bind (fun dt => List.lookup name dt.members)

/-- Source `iter_def_elements(file_path)`: a parse failure is re-raised as
`RuntimeError("Parse error: ...")`; on success, if the namespace-stripped
root tag is `Defs` every direct (string-tagged) child that looks like a def
is yielded, otherwise the root alone is yielded when it looks like a def.
The document argument carries the parse outcome. -/
def iter_def_elements (doc : Except String XElem) : Except String (List XElem) :=
  match doc with
  | .error e => .error ("Parse error: " ++ e)
  | .ok root =>
      if strip_ns root.tag == "Defs" then
        .ok ((kids root).filter (fun ch => looks_like_def_tag ch.tag))
      else if looks_like_def_tag root.tag then .ok [root]
      else .ok []

/-- The value stored by `collect_tag_map`'s `add`:
`s if len(s) <= 200 else (s[:197] + "…")` (Python slices by code point). -/
def truncVal (s : String) : String :=
  if s.length ≤ 200 then s else String.mk (s.data.take 197 ++ ['…'])

/-- The tag map under construction: tag or attribute name to the set of
observed values (a Python set of strings, modelled as a duplicate-free
list). -/
abbrev TagMap := List (String × List String)

/-- Source `add(tag, value)` inside `collect_tag_map`: skip a missing or
blank value, otherwise insert the (possibly truncated) stripped value into
the tag's value set, creating the set on first use. -/
def addVal (seen : TagMap) (tag : String) (value : Option String) : TagMap :=
  match value with
  | none => seen
  | some v =>
      let s := pyStrip v
      if s == "" then seen
      else
        let s' := truncVal s
        if seen.any (fun kv => kv.1 == tag) then
          seen.map (fun kv =>
            if kv.1 == tag then (kv.1, if s' ∈ kv.2 then kv.2 else kv.2 ++ [s']) else kv)
        else seen ++ [(tag, [s'])]

mutual
/-- Source `walk(node)` inside `collect_tag_map`: add every attribute
value under its attribute name, then the element's stripped text under its
(raw, unstripped) tag, then recurse into the string-tagged children in
order. -/
def walkElem (seen : TagMap) : XElem → TagMap
  | .mk tag attrib text children =>
      let s1 := attrib.foldl (fun acc kv => addVal acc kv.1 (some kv.2)) seen
      let s2 := addVal s1 tag
        (match text with
         | none => none
         | some t => if pyStrip t == "" then none else some (pyStrip t))
      walkKids s2 children
def walkKids (seen : TagMap) : XKids → TagMap
  | .nil => seen
  | .cons c rest => walkKids (walkElem seen c) rest
end

/-- Stable insertion of a string into a sorted list (used to model Python
`sorted` on strings). -/
def insertSorted (x : String) : List String → List String
  | [] => [x]
  | y :: ys => if pyStrLe x y then x :: y :: ys else y :: insertSorted x ys

/-- Python `sorted` on a list of strings (code-point order).  On the
duplicate-free value lists built by `addVal` this produces the same list as
Python's `sorted(list(set_of_values))`. -/
def sortStrings : List String → List String
  | [] => []
  | x :: xs => insertSorted x (sortStrings xs)

/-- Source `collect_tag_map(elem)`: walk the subtree from the empty map,
then return each value set as a sorted list. -/
def collect_tag_map (elem : XElem) : TagMap :=
  (walkElem [] elem).map (fun kv => (kv.1, sortStrings kv.2))

mutual
/-- The sequence of `add(tag, value)` calls that `walk` performs on an
element's subtree, in order: one per attribute, one for the element's own
text, then the children's calls. -/
def obsElem : XElem → List (String × Option String)
  | .mk tag attrib text children =>
      attrib.map (fun kv => (kv.1, some kv.2))
        ++ [(tag,
             match text with
             | none => none
             | some t => if pyStrip t == "" then none else some (pyStrip t))]
        ++ obsKids children
def obsKids : XKids → List (String × Option String)
  | .nil => []
  | .cons c rest => obsElem c ++ obsKids rest
end

/-- The observations that survive `add`'s blank test: pairs of a tag or
attribute name and the stripped, non-blank observed value. -/
def trimmedObs (obs : List (String × Option String)) : List (String × String) :=
  obs.filterMap (fun kv =>
    match kv.2 with
    | none => none
    | some v => if pyStrip v == "" then none else some (kv.1, pyStrip v))

/-- The observed (stripped, non-blank, untruncated) values of an element's
subtree, keyed by tag or attribute name. -/
def observedValues (e : XElem) : List (String × String) := trimmedObs (obsElem e)

/-- The filesystem view consumed by the version detector: whether a
directory contains a `Version.txt` regular file, and that file's lines
(`read_text().splitlines()`; reading is modelled as always succeeding). -/
structure VFS : Type where
  hasVersionTxt : FsPath → Bool
  versionLines : FsPath → List String

/-- The upward walk of `_ancestor_with_version_txt`, on reversed segment
lists: check the current directory, then its parent, stopping at the
filesystem root (which is itself checked). -/
def ancRev (fs : VFS) : List String → Option FsPath
  | [] => if fs.hasVersionTxt [] then some [] else none
  | s :: rest =>
      if fs.hasVersionTxt ((s :: rest).reverse) then some ((s :: rest).reverse)
      else ancRev fs rest

/-- Source `_ancestor_with_version_txt(start)`: the nearest ancestor of
`start` (including itself, bounded by the filesystem root) containing a
`Version.txt` file. -/
def ancestor_with_version_txt (fs : VFS) (start : FsPath) : Option FsPath :=
  ancRev fs start.reverse

/-- Source `next((ln.strip() for ln in txt.splitlines() if ln.strip()), "")`:
the first non-blank line, stripped, or the empty string. -/
def firstNonBlankLine (lines : List String) : String :=
  ((lines.find? (fun ln => !(pyStrip ln == ""))).map pyStrip).getD ""

/-- Source `counts[line] = counts.get(line, 0) + 1` on an insertion-ordered
dict: update the existing entry in place, or append a fresh entry. -/
def bump (counts : List (String × Nat)) (k : String) : List (String × Nat) :=
  if counts.any (fun kv => kv.1 == k) then
    counts.map (fun kv => if kv.1 == k then (kv.1, kv.2 + 1) else kv)
  else counts ++ [(k, 1)]

/-- Source `max(counts.items(), key=lambda kv: kv[1])[0]`: Python `max`
scans left to right and replaces the current best only on a strictly
greater key, so the first of several tied maxima wins. -/
def maxByCount (counts : List (String × Nat)) : Option String :=
  match counts with
  | [] => none
  | kv :: rest => some ((rest.foldl (fun best x => if best.2 < x.2 then x else best) kv).1)

/-- Source `detect_rimworld_version(official_roots)`: for each root, find
the nearest ancestor with a `Version.txt`, read its first non-blank line,
and tally it; return `None` when nothing was tallied, else the most
frequent line. -/
def detect_rimworld_version (fs : VFS) (official_roots : List FsPath) : Option String :=
  let counts := official_roots.foldl (fun counts r =>
    match ancestor_with_version_txt fs r with
    | none => counts
    | some base =>
        let line := firstNonBlankLine (fs.versionLines base)
        if line == "" then counts else bump counts line) []
  if counts.isEmpty then none else maxByCount counts

/-- The candidate version string one root contributes to the tally (the
value the loop body of `detect_rimworld_version` passes to the tally, or
none when the root contributes nothing). -/
def candidateVersion (fs : VFS) (r : FsPath) : Option String :=
  match ancestor_with_version_txt fs r with
  | none => none
  | some base =>
      let line := firstNonBlankLine (fs.versionLines base)
      if line == "" then none else some line

/-- The sequence of tallied candidate strings over all roots, in root
order. -/
def observations (fs : VFS) (roots : List FsPath) : List String :=
  roots.filterMap (candidateVersion fs)

/-- Modelled from the spec: the distinct candidate strings in order of
first encounter (the key order of a stable insertion-ordered tally). -/
def firstOccs : List String → List String
  | [] => []
  | a :: l => a :: firstOccs (l.filter (fun x => x != a))
  termination_by l => l.length
  decreasing_by
    simp only [List.length_cons]
    exact Nat.lt_succ_of_le (List.length_filter_le _ _)

/-- Modelled from the spec: the insertion-ordered tally itself, pairing
each distinct candidate (in order of first encounter) with its number of
occurrences. -/
def specTally (obs : List String) : List (String × Nat) :=
  (firstOccs obs).map (fun k => (k, obs.count k))

/-- Modelled from the spec: the most frequent entry, ties resolved to the
one first encountered — the first entry whose count is at least every
other count. -/
def firstWithMax (l : List (String × Nat)) : Option (String × Nat) :=
  l.find? (fun kv => l.all (fun kv2 => decide (kv2.2 ≤ kv.2)))

/-- The fields of an item record that the extraction pipeline computes per
definition element.  The remaining fields written by `build_layer`
(`modDisplay`, `layer`, `path`, `absPath`, and the pretty-printed `xml`
text) depend only on the scan context or on rendering and are not needed by
any verified property. -/
structure Item : Type where
  defType : String
  defName : String
  tagMap : TagMap
  deriving DecidableEq

/-- The mutable state threaded through `build_layer`'s document loop: the
layer's item list, the shared schema registry, and the error log (the
`print`ed per-document error lines). -/
structure BuildSt : Type where
  items : List Item
  meta : Meta
  log : List String
  deriving DecidableEq

/-- The body of `build_layer`'s per-document `try`: iterate the document's
definition elements, accumulating schema and appending one item record per
element; a raised parse error is caught and logged with the file identity
and message, leaving items and schema untouched. -/
def processDoc (st : BuildSt) (path : FsPath) (doc : Except String XElem) : BuildSt :=
  match iter_def_elements doc with
  | .error msg => { st with log := st.log ++ ["  ! Error in " ++ pathStr path ++ ": " ++ msg] }
  | .ok elems =>
      elems.foldl (fun s el =>
        let def_type := strip_ns el.tag
        let def_name := defNameOf el
        let tag_map := collect_tag_map el
        { s with
          meta := accumulate_meta s.meta def_type el
          items := s.items ++ [⟨def_type, def_name, tag_map⟩] }) st

/-- Python `Path.name`: the last segment (empty for the root path). -/
def fileName (p : FsPath) : String := p.getLast?.getD ""

/-- Python `Path.parent.name`: the second-to-last segment (empty when the
parent is the root). -/
def parentName (p : FsPath) : String := p.dropLast.getLast?.getD ""

/-- The skip test at the top of `build_layer`'s document loop:
`xf.name.lower() == "about.xml" and xf.parent.name.lower() == "about"`. -/
def aboutSkip (p : FsPath) : Bool :=
  pyLower (fileName p) == "about.xml" && pyLower (parentName p) == "about"

/-- A candidate document: its path and its parse outcome. -/
abbrev FileDoc := FsPath × Except String XElem

/-- One iteration of `build_layer`'s document loop: `About/About.xml` files
are skipped before parsing; every other document is processed. -/
def processFile (st : BuildSt) (f : FileDoc) : BuildSt :=
  if aboutSkip f.1 then st else processDoc st f.1 f.2

/-- `build_layer`'s document loop over one mod's enumerated documents. -/
def build_docs (st : BuildSt) (files : List FileDoc) : BuildSt :=
  files.foldl processFile st

mutual
/-- A directory tree: directory name, the names of the plain files inside
it, and its subdirectories in listing order. -/
inductive FTree : Type where
  | node (name : String) (files : List String) (subs : FForest)
  deriving DecidableEq
inductive FForest : Type where
  | fnil
  | fcons (t : FTree) (rest : FForest)
  deriving DecidableEq
end

def FTree.name : FTree → String
  | .node n _ _ => n

def FForest.toList : FForest → List FTree
  | .fnil => []
  | .fcons t rest => t :: rest.toList

/-- The prune test of `iter_xml_files_pruned`'s in-place dirnames filter:
`d.lower() not in prune_dirs_lower` fails, i.e. the directory is pruned. -/
def prunedDir (prune : List String) (t : FTree) : Bool :=
  prune.contains (pyLower t.name)

mutual
/-- Source `iter_xml_files_pruned(base_dir, prune_dirs_lower)` via
`os.walk`: yield the current directory's files whose lowercased name ends
in `.xml`, then recurse into the subdirectories in order.  The in-place
filter `dirnames[:] = [d for d in dirnames if d.lower() not in prune_dirs_lower]`
removes pruned subdirectories before any descent into them, so a pruned
child contributes nothing at all.  `pfx` is the path of the base
directory's parent; yielded paths are full segment lists. -/
def iter_xml_files_pruned (prune : List String) (pfx : FsPath) : FTree → List FsPath
  | .node name files subs =>
      let here := pfx ++ [name]
      (files.filterMap (fun fn =>
        if pyEndsWith (pyLower fn) ".xml" then some (here ++ [fn]) else none))
        ++ walkForest prune here subs
def walkForest (prune : List String) (pfx : FsPath) : FForest → List FsPath
  | .fnil => []
  | .fcons t rest =>
      (if prunedDir prune t then [] else iter_xml_files_pruned prune pfx t)
        ++ walkForest prune pfx rest
end

/-- A leaf element with a text value, for concrete examples. -/
def leafEl (tag : String) (txt : String) : XElem := XElem.mk tag [] (some txt) XKids.nil

/-- A childless, textless element, for concrete examples. -/
def bareEl (tag : String) : XElem := XElem.mk tag [] none XKids.nil

/-- Example: a definition element carrying `<defName>Gun_Bolt</defName>`. -/
def exGunBolt : XElem := XElem.mk "ThingDef" [] none (kidsOf [leafEl "defName" "Gun_Bolt"])

/-- Example: a definition element with only a `Name="Bar"` attribute. -/
def exBar : XElem := XElem.mk "ThingDef" [("Name", "Bar")] none XKids.nil

/-- Example: a definition element with neither identity source. -/
def exAnon : XElem := bareEl "ThingDef"

/-- Example: a `Defs` container with two definition-like children around a
non-matching child. -/
def exDefsRoot : XElem :=
  XElem.mk "Defs" [] none (kidsOf [bareEl "ThingDef", bareEl "Operation", bareEl "PawnKindDef"])

/-- Example: a list member, two plain `li` children. -/
def exListMember : XElem := XElem.mk "tags" [] none (kidsOf [leafEl "li" "a", leafEl "li" "b"])

/-- Example: a map-like member, an `li` child carrying a key/value pair. -/
def exMapLiMember : XElem :=
  XElem.mk "prices" [] none
    (kidsOf [XElem.mk "li" [] none (kidsOf [leafEl "key" "Steel", leafEl "value" "2"])])

/-- Example: a member that itself carries a key/value pair. -/
def exMapSelfMember : XElem :=
  XElem.mk "pair" [] none (kidsOf [leafEl "key" "a", leafEl "value" "1"])

/-- Example: a class-like member, one structured non-`li` child. -/
def exClassMember : XElem := XElem.mk "comps" [] none (kidsOf [bareEl "compUsable"])

/-- Example filesystem for version detection: three drive-level directories
holding `Version.txt` files with lines 1.4, 1.4 and 1.5. -/
def exVFS : VFS where
  hasVersionTxt := fun p => p == ["g1"] || p == ["g2"] || p == ["g3"]
  versionLines := fun p =>
    if p == ["g1"] then ["1.4"]
    else if p == ["g2"] then ["1.4"]
    else if p == ["g3"] then ["1.5"]
    else []

/-- Example scan roots under the three version-marked directories. -/
def exRoots : List FsPath := [["g1", "Data"], ["g2", "Data"], ["g3", "Data"]]

/-- The empty build state. -/
def exSt0 : BuildSt := ⟨[], [], []⟩

/-- Example: a mod tree with a `Languages` subtree to prune and a `Defs`
subtree to keep. -/
def exModTree : FTree :=
  .node "Mods" ["readme.xml", "notes.txt"]
    (.fcons (.node "Languages" ["l.xml"] .fnil)
      (.fcons (.node "Defs" ["d.xml"] .fnil) .fnil))

/-- Example: a base directory itself named like a prune entry. -/
def exLangTree : FTree := .node "Languages" ["strings.xml"] .fnil

/-- A 201-character value, one character over the truncation threshold. -/
def longText : String := String.mk (List.replicate 201 'a')

/-- What the builder stores for `longText`: 197 characters plus one
ellipsis character (198 characters, not 200). -/
def longStored : String := String.mk (List.replicate 197 'a' ++ ['…'])

/-- Example: a definition element whose `label` child holds the
201-character value. -/
def exLongElem : XElem := XElem.mk "ThingDef" [] none (kidsOf [leafEl "label" longText])

/-- Example: a definition element with one short `label` value. -/
def exShortElem : XElem := XElem.mk "ThingDef" [] none (kidsOf [leafEl "label" " gun "])

/-- Example member map with a member already recorded as Class. -/
def exMembers : List (String × MemberInfo) := [("statBases", ⟨Kind.Class, "unknown"⟩)]

/-- Example schema registry containing `exMembers` under `ThingDef`. -/
def exMeta : Meta := [("ThingDef", ⟨"ThingDef", exMembers⟩)]

/-- The relation "neither path contains the other". -/
def noNest (a b : FsPath) : Prop := is_within a b = false ∧ is_within b a = false

theorem noNest_symm : ∀ {a b : FsPath}, noNest a b → noNest b a :=
  fun h => ⟨h.2, h.1⟩

theorem add_mod_root_pairwise {roots : List FsPath} {c : FsPath}
    (h : List.Pairwise noNest roots) : List.Pairwise noNest (add_mod_root roots c) := by
  rcases hany : roots.any (fun r => is_within c r) with _ | _
  · rw [add_mod_root, hany]
    simp only [Bool.false_eq_true, if_false]
    rw [List.pairwise_append]
    refine ⟨h.filter _, List.pairwise_singleton _ _, ?_⟩
    intro a ha b hb
    rw [List.mem_singleton] at hb
    subst hb
    rw [List.mem_filter] at ha
    constructor
    · simpa using ha.2
    · rw [List.any_eq_false] at hany
      exact Bool.eq_false_iff.mpr (hany a ha.1)
  · rw [add_mod_root, hany]
    simpa using h

theorem foldl_add_mod_root_pairwise :
    ∀ (cands : List FsPath) (init : List FsPath),
      List.Pairwise noNest init → List.Pairwise noNest (cands.foldl add_mod_root init) := by
  intro cands
  induction cands with
  | nil => intro init h; exact h
  | cons c rest ih =>
      intro init h
      exact ih (add_mod_root init c) (add_mod_root_pairwise h)

/-- C1: for every scan root, the mod-root set produced by
`discover_mod_dirs` (built via `add_mod_root` over both discovery passes)
contains no two entries in an ancestor/descendant relationship; when a
candidate is added, an existing root containing it wins and the candidate
is discarded, and any existing roots contained in the candidate are
removed in its favor. -/
theorem discover_mod_dirs_minimal :
    (∀ candidates : List FsPath,
        List.Pairwise noNest (discover_mod_dirs candidates))
    ∧ (∀ (roots : List FsPath) (c : FsPath),
        roots.any (fun r => is_within c r) = true → add_mod_root roots c = roots)
    ∧ (∀ (roots : List FsPath) (c : FsPath),
        roots.any (fun r => is_within c r) = false →
          add_mod_root roots c = (roots.filter (fun r => !is_within r c)) ++ [c]) := by
  refine ⟨?_, ?_, ?_⟩
  · intro candidates
    have hbase : List.Pairwise noNest (candidates.foldl add_mod_root []) :=
      foldl_add_mod_root_pairwise candidates [] (List.Pairwise.nil)
    rw [discover_mod_dirs]
    exact ((List.mergeSort_perm _ _).pairwise_iff (fun h => noNest_symm h)).mpr hbase
  · intro roots c h
    rw [add_mod_root, h]
    simp
  · intro roots c h
    rw [add_mod_root, h]
    simp

theorem discover_mod_dirs_minimal_witness :
    add_mod_root [["mods", "alpha"]] ["mods", "alpha", "sub"] = [["mods", "alpha"]]
    ∧ add_mod_root [["mods", "alpha", "sub"]] ["mods", "alpha"] = [["mods", "alpha"]] := by
  constructor
  · exact discover_mod_dirs_minimal.2.1 [["mods", "alpha"]] ["mods", "alpha", "sub"] (by decide)
  · exact (discover_mod_dirs_minimal.2.2 [["mods", "alpha", "sub"]] ["mods", "alpha"]
      (by decide)).trans (by decide)

theorem lookup_map_rep {β : Type} (name : String) (x : β) :
    ∀ ms : List (String × β),
      List.lookup name (ms.map (fun kv => if kv.1 == name then (kv.1, x) else kv))
        = (List.lookup name ms).map (fun _ => x) := by
  intro ms
  induction ms with
  | nil => rfl
  | cons kv rest ih =>
      obtain ⟨k, v⟩ := kv
      simp only [List.map_cons]
      by_cases h : k = name
      · subst h
        rw [if_pos (by simp)]
        simp [List.lookup]
      · have hb : (k == name) = false := beq_eq_false_iff_ne.mpr h
        have hb' : (name == k) = false := beq_eq_false_iff_ne.mpr (fun hh => h hh.symm)
        rw [if_neg (by simp [hb])]
        simp only [List.lookup, hb']
        simpa using ih

theorem lookup_map_rep_ne {β : Type} (name k' : String) (x : β) (hne : k' ≠ name) :
    ∀ ms : List (String × β),
      List.lookup k' (ms.map (fun kv => if kv.1 == name then (kv.1, x) else kv))
        = List.lookup k' ms := by
  intro ms
  induction ms with
  | nil => rfl
  | cons kv rest ih =>
      obtain ⟨k, v⟩ := kv
      simp only [List.map_cons]
      by_cases h : k = name
      · subst h
        have hb : (k' == k) = false := beq_eq_false_iff_ne.mpr hne
        rw [if_pos (by simp)]
        simp only [List.lookup, hb]
        simpa using ih
      · have hb : (k == name) = false := beq_eq_false_iff_ne.mpr h
        rw [if_neg (by simp [hb])]
        by_cases hk : k' = k
        · subst hk
          simp [List.lookup]
        · have hb2 : (k' == k) = false := beq_eq_false_iff_ne.mpr hk
          simp only [List.lookup, hb2]
          simpa using ih

theorem lookup_append {β : Type} (k : String) :
    ∀ (l1 l2 : List (String × β)),
      List.lookup k (l1 ++ l2) = (List.lookup k l1).or (List.lookup k l2) := by
  intro l1 l2
  induction l1 with
  | nil => simp [List.lookup, Option.or]
  | cons kv rest ih =>
      obtain ⟨a, b⟩ := kv
      by_cases h : k = a
      · subst h
        simp [List.lookup, Option.or]
      · have hb : (k == a) = false := beq_eq_false_iff_ne.mpr h
        simp [List.lookup, hb, ih]

theorem updMember_no_downgrade {ms : List (String × MemberInfo)} {name : String}
    {prior : MemberInfo} {kind : Kind} (hl : List.lookup name ms = some prior)
    (hle : kindOrder kind ≤ kindOrder prior.kind) : updMember ms name kind = ms := by
  simp only [updMember, hl]
  exact if_neg (by omega)

theorem updMember_upgrade {ms : List (String × MemberInfo)} {name : String}
    {prior : MemberInfo} {kind : Kind} (hl : List.lookup name ms = some prior)
    (hlt : kindOrder prior.kind < kindOrder kind) :
    List.lookup name (updMember ms name kind) = some ⟨kind, "unknown"⟩ := by
  simp only [updMember, hl, if_pos hlt]
  rw [lookup_map_rep, hl]
  rfl

theorem updMember_lookup_ne {ms : List (String × MemberInfo)} {name k' : String}
    {kind : Kind} (hne : k' ≠ name) :
    List.lookup k' (updMember ms name kind) = List.lookup k' ms := by
  cases hl : List.lookup name ms with
  | some prior =>
      by_cases hlt : kindOrder prior.kind < kindOrder kind
      · simp only [updMember, hl, if_pos hlt]
        exact lookup_map_rep_ne name k' _ hne ms
      · simp only [updMember, hl, if_neg hlt]
  | none =>
      have hsingle : List.lookup k' [(name, (⟨kind, "unknown"⟩ : MemberInfo))] = none := by
        have hb : (k' == name) = false := beq_eq_false_iff_ne.mpr hne
        simp [List.lookup, hb]
      simp only [updMember, hl]
      rw [lookup_append, hsingle]
      cases hx : List.lookup k' ms <;> rfl

theorem updMember_mono {ms : List (String × MemberInfo)} {name : String}
    {prior : MemberInfo} (kind : Kind) (hl : List.lookup name ms = some prior) :
    ∃ mi', List.lookup name (updMember ms name kind) = some mi'
      ∧ kindOrder prior.kind ≤ kindOrder mi'.kind := by
  by_cases hlt : kindOrder prior.kind < kindOrder kind
  · exact ⟨⟨kind, "unknown"⟩, updMember_upgrade hl hlt, le_of_lt hlt⟩
  · refine ⟨prior, ?_, le_refl _⟩
    rw [updMember_no_downgrade hl (by omega)]
    exact hl

theorem foldl_updMember_mono :
    ∀ (l : List XElem) (ms : List (String × MemberInfo)) (name : String) (prior : MemberInfo),
      List.lookup name ms = some prior →
      ∃ mi', List.lookup name
          (l.foldl (fun ms ch => updMember ms (strip_ns ch.tag) (infer_member_kind ch)) ms)
            = some mi'
        ∧ kindOrder prior.kind ≤ kindOrder mi'.kind := by
  intro l
  induction l with
  | nil => exact fun ms name prior h => ⟨prior, h, le_refl _⟩
  | cons ch rest ih =>
      intro ms name prior h
      rw [List.foldl_cons]
      by_cases hn : name = strip_ns ch.tag
      · subst hn
        obtain ⟨mi1, h1, hle1⟩ := updMember_mono (infer_member_kind ch) h
        obtain ⟨mi', h', hle'⟩ := ih _ _ mi1 h1
        exact ⟨mi', h', le_trans hle1 hle'⟩
      · have heq : List.lookup name (updMember ms (strip_ns ch.tag) (infer_member_kind ch))
            = some prior := by
          rw [updMember_lookup_ne hn]
          exact h
        exact ih _ _ prior heq

theorem accumulate_meta_member_mono (meta : Meta) (d : String) (e : XElem)
    (dty name : String) (mi : MemberInfo) (h : memberLookup meta dty name = some mi) :
    ∃ mi', memberLookup (accumulate_meta meta d e) dty name = some mi'
      ∧ kindOrder mi.kind ≤ kindOrder mi'.kind := by
  rw [memberLookup] at h
  cases hd : List.lookup dty meta with
  | none => rw [hd] at h; simp at h
  | some X =>
      rw [hd] at h
      simp only [Option.some_bind] at h
      cases hld : List.lookup d meta with
      | some dInfo =>
          by_cases hdt : dty = d
          · subst hdt
            have hX : X = dInfo := by
              rw [hd] at hld
              exact Option.some.inj hld
            subst hX
            rw [memberLookup]
            simp only [accumulate_meta, hld]
            rw [lookup_map_rep, hd]
            simp only [Option.map_some', Option.some_bind]
            exact foldl_updMember_mono _ _ name mi h
          · rw [memberLookup]
            simp only [accumulate_meta, hld]
            rw [lookup_map_rep_ne d dty _ hdt, hd]
            simp only [Option.some_bind]
            exact ⟨mi, h, le_refl _⟩
      | none =>
          rw [memberLookup]
          simp only [accumulate_meta, hld]
          rw [lookup_append, hd]
          exact ⟨mi, h, le_refl _⟩

theorem foldl_accumulate_mono :
    ∀ (obs : List (String × XElem)) (meta : Meta) (dty name : String) (mi : MemberInfo),
      memberLookup meta dty name = some mi →
      ∃ mi', memberLookup (obs.foldl (fun m p => accumulate_meta m p.1 p.2) meta) dty name
          = some mi'
        ∧ kindOrder mi.kind ≤ kindOrder mi'.kind := by
  intro obs
  induction obs with
  | nil => exact fun meta dty name mi h => ⟨mi, h, le_refl _⟩
  | cons p rest ih =>
      intro meta dty name mi h
      rw [List.foldl_cons]
      obtain ⟨mi1, h1, hle1⟩ := accumulate_meta_member_mono meta p.1 p.2 dty name mi h
      obtain ⟨mi', h', hle'⟩ := ih _ dty name mi1 h1
      exact ⟨mi', h', le_trans hle1 hle'⟩

/-- C2: for every defType and member name, across any sequence of
`accumulate_meta` calls the recorded kind is monotone in
Scalar < List < Map < Class: a new observation replaces the stored kind
only when it ranks strictly higher, an equal or lower observation leaves
the member map entirely unchanged (in particular a Class entry survives a
later Scalar observation), and across any observation sequence the stored
kind never decreases. -/
theorem accumulate_meta_kind_monotone :
    (∀ (ms : List (String × MemberInfo)) (name : String) (prior : MemberInfo) (kind : Kind),
        List.lookup name ms = some prior → kindOrder kind ≤ kindOrder prior.kind →
          updMember ms name kind = ms)
    ∧ (∀ (ms : List (String × MemberInfo)) (name : String) (prior : MemberInfo) (kind : Kind),
        List.lookup name ms = some prior → kindOrder prior.kind < kindOrder kind →
          List.lookup name (updMember ms name kind) = some ⟨kind, "unknown"⟩)
    ∧ (∀ (obs : List (String × XElem)) (meta : Meta) (dty name : String) (mi : MemberInfo),
        memberLookup meta dty name = some mi →
        ∃ mi', memberLookup (obs.foldl (fun m p => accumulate_meta m p.1 p.2) meta) dty name
            = some mi'
          ∧ kindOrder mi.kind ≤ kindOrder mi'.kind) :=
  ⟨fun _ _ _ _ h hle => updMember_no_downgrade h hle,
   fun _ _ _ _ h hlt => updMember_upgrade h hlt,
   fun obs meta dty name mi h => foldl_accumulate_mono obs meta dty name mi h⟩

theorem accumulate_meta_kind_monotone_witness :
    (updMember exMembers "statBases" Kind.Scalar = exMembers)
    ∧ (∃ mi', memberLookup
          ([("ThingDef", XElem.mk "ThingDef" [] none (kidsOf [bareEl "statBases"]))].foldl
            (fun m p => accumulate_meta m p.1 p.2) exMeta) "ThingDef" "statBases" = some mi'
        ∧ kindOrder Kind.Class ≤ kindOrder mi'.kind) :=
  ⟨accumulate_meta_kind_monotone.1 exMembers "statBases" ⟨Kind.Class, "unknown"⟩ Kind.Scalar
      (by decide) (by decide),
   accumulate_meta_kind_monotone.2.2 _ exMeta "ThingDef" "statBases" ⟨Kind.Class, "unknown"⟩
      (by decide)⟩

/-- C3: for a successfully parsed document, a `Defs` root yields exactly
its definition-like direct children (the filter keeps precisely the
children whose namespace-stripped tag ends in `Def`, `DefBase` or
`RulePackDef`); any other root yields itself exactly when it is
definition-like, and otherwise the document yields zero elements without
being an error. -/
theorem iter_def_elements_shape : ∀ root : XElem,
    (strip_ns root.tag = "Defs" →
        iter_def_elements (Except.ok root)
          = Except.ok ((kids root).filter (fun ch => looks_like_def_tag ch.tag)))
    ∧ (strip_ns root.tag ≠ "Defs" → looks_like_def_tag root.tag = true →
        iter_def_elements (Except.ok root) = Except.ok [root])
    ∧ (strip_ns root.tag ≠ "Defs" → looks_like_def_tag root.tag = false →
        iter_def_elements (Except.ok root) = Except.ok []) := by
  intro root
  refine ⟨?_, ?_, ?_⟩
  · intro h
    simp [iter_def_elements, h]
  · intro h hl
    have hb : (strip_ns root.tag == "Defs") = false := beq_eq_false_iff_ne.mpr h
    simp [iter_def_elements, hb, hl]
  · intro h hl
    have hb : (strip_ns root.tag == "Defs") = false := beq_eq_false_iff_ne.mpr h
    simp [iter_def_elements, hb, hl]

theorem iter_def_elements_shape_witness :
    iter_def_elements (Except.ok exDefsRoot)
      = Except.ok [bareEl "ThingDef", bareEl "PawnKindDef"]
    ∧ ((kids exDefsRoot).filter (fun ch => looks_like_def_tag ch.tag)).length = 2 :=
  ⟨((iter_def_elements_shape exDefsRoot).1 (by decide)).trans (by rfl), by rfl⟩

/-- C4: for every definition element, the item record's defName is the
stripped text of a `defName` child when that is present and non-blank;
otherwise the stripped `Name` attribute when present and non-blank;
otherwise the empty string. -/
theorem extract_def_name_spec : ∀ e : XElem,
    (∀ c raw, findChild e "defName" = some c → c.text = some raw → pyStrip raw ≠ "" →
        defNameOf e = pyStrip raw)
    ∧ (first_text (findChild e "defName") = none →
        ∀ nm, attrOf e "Name" = some nm → nm ≠ "" → pyStrip nm ≠ "" →
          defNameOf e = pyStrip nm)
    ∧ (first_text (findChild e "defName") = none →
        (∀ nm, attrOf e "Name" = some nm → nm = "" ∨ pyStrip nm = "") →
          defNameOf e = "") := by
  intro e
  refine ⟨?_, ?_, ?_⟩
  · intro c raw hc hraw hnb
    have hb : (pyStrip raw == "") = false := beq_eq_false_iff_ne.mpr hnb
    simp [defNameOf, extract_def_name, first_text, hc, hraw, hb]
  · intro hft nm ha hnm hnb
    have hb1 : (nm == "") = false := beq_eq_false_iff_ne.mpr hnm
    have hb2 : (pyStrip nm == "") = false := beq_eq_false_iff_ne.mpr hnb
    simp [defNameOf, extract_def_name, hft, ha, hb1, hb2]
  · intro hft hall
    cases hA : attrOf e "Name" with
    | none => simp [defNameOf, extract_def_name, hft, hA]
    | some nm =>
        have hcond : (nm == "" || pyStrip nm == "") = true := by
          rcases hall nm hA with h | h
          · simp [h]
          · simp [h]
        simp [defNameOf, extract_def_name, hft, hA, hcond]

theorem extract_def_name_spec_witness :
    defNameOf exGunBolt = "Gun_Bolt" ∧ defNameOf exBar = "Bar" ∧ defNameOf exAnon = "" := by
  refine ⟨?_, ?_, ?_⟩
  · exact ((extract_def_name_spec exGunBolt).1 (leafEl "defName" "Gun_Bolt") "Gun_Bolt"
      (by decide) (by decide) (by decide)).trans (by decide)
  · exact ((extract_def_name_spec exBar).2.1 (by decide) "Bar"
      (by decide) (by decide) (by decide)).trans (by decide)
  · refine (extract_def_name_spec exAnon).2.2 (by decide) ?_
    intro nm h
    have hnone : attrOf exAnon "Name" = none := by decide
    rw [hnone] at h
    exact Option.noConfusion h

/-- C5: `infer_member_kind` classifies a member by its immediate element
children only, with the source's branch priority: no children gives
Scalar; all-`li` children give List unless some `li` carries a key/value
pair, which gives Map; otherwise a key/value pair on the member itself or
on some child gives Map; otherwise Class. -/
theorem infer_member_kind_spec : ∀ m : XElem,
    (kids m = [] → infer_member_kind m = Kind.Scalar)
    ∧ (kids m ≠ [] → (∀ c ∈ kids m, c.tag = "li") → (∀ c ∈ kids m, hasKV c = false) →
        infer_member_kind m = Kind.List)
    ∧ (kids m ≠ [] → (∀ c ∈ kids m, c.tag = "li") → (∃ c ∈ kids m, hasKV c = true) →
        infer_member_kind m = Kind.Map)
    ∧ (¬ (∀ c ∈ kids m, c.tag = "li") →
        (hasKV m = true ∨ ∃ c ∈ kids m, hasKV c = true) → infer_member_kind m = Kind.Map)
    ∧ (¬ (∀ c ∈ kids m, c.tag = "li") → hasKV m = false → (∀ c ∈ kids m, hasKV c = false) →
        infer_member_kind m = Kind.Class) := by
  intro m
  have hEmpty : kids m ≠ [] → (kids m).isEmpty = false := by
    intro hne
    cases hk : kids m with
    | nil => exact absurd hk hne
    | cons a l => simp
  have hAllT : (∀ c ∈ kids m, c.tag = "li") → (kids m).all (fun ch => ch.tag == "li") = true :=
    fun h => List.all_eq_true.mpr (fun c hc => by rw [beq_iff_eq]; exact h c hc)
  have hAllF : ¬ (∀ c ∈ kids m, c.tag = "li") →
      (kids m).all (fun ch => ch.tag == "li") = false := by
    intro h
    rw [Bool.eq_false_iff]
    intro hT
    exact h (fun c hc => by
      have := List.all_eq_true.mp hT c hc
      rwa [beq_iff_eq] at this)
  have hNonEmpty : ¬ (∀ c ∈ kids m, c.tag = "li") → kids m ≠ [] := by
    intro h hk
    exact h (fun c hc => by rw [hk] at hc; exact absurd hc (List.not_mem_nil c))
  refine ⟨?_, ?_, ?_, ?_, ?_⟩
  · intro h
    simp [infer_member_kind, h]
  · intro hne hli hnkv
    have hAny : (kids m).any (fun c => hasKV c) = false :=
      List.any_eq_false.mpr (fun c hc => by rw [hnkv c hc]; exact Bool.false_ne_true)
    simp [infer_member_kind, hEmpty hne, hAllT hli, hAny]
  · intro hne hli hkv
    obtain ⟨c, hc, hkvc⟩ := hkv
    have hAny : (kids m).any (fun c => hasKV c) = true :=
      List.any_eq_true.mpr ⟨c, hc, hkvc⟩
    simp [infer_member_kind, hEmpty hne, hAllT hli, hAny]
  · intro hnli hor
    rcases hor with hm | ⟨c, hc, hkvc⟩
    · simp [infer_member_kind, hEmpty (hNonEmpty hnli), hAllF hnli, hm]
    · by_cases hm : hasKV m
      · simp [infer_member_kind, hEmpty (hNonEmpty hnli), hAllF hnli, hm]
      · have hAny : (kids m).any (fun ch => hasKV ch) = true :=
          List.any_eq_true.mpr ⟨c, hc, hkvc⟩
        simp [infer_member_kind, hEmpty (hNonEmpty hnli), hAllF hnli, hm, hAny]
  · intro hnli hm hnkv
    have hAny : (kids m).any (fun ch => hasKV ch) = false :=
      List.any_eq_false.mpr (fun c hc => by rw [hnkv c hc]; exact Bool.false_ne_true)
    simp [infer_member_kind, hEmpty (hNonEmpty hnli), hAllF hnli, hm, hAny]

theorem infer_member_kind_spec_witness :
    infer_member_kind (bareEl "statBases") = Kind.Scalar
    ∧ infer_member_kind exListMember = Kind.List
    ∧ infer_member_kind exMapLiMember = Kind.Map
    ∧ infer_member_kind exMapSelfMember = Kind.Map
    ∧ infer_member_kind exClassMember = Kind.Class := by
  refine ⟨?_, ?_, ?_, ?_, ?_⟩
  · exact (infer_member_kind_spec (bareEl "statBases")).1 (by decide)
  · exact (infer_member_kind_spec exListMember).2.1 (by decide) (by decide) (by decide)
  · exact (infer_member_kind_spec exMapLiMember).2.2.1 (by decide) (by decide) (by decide)
  · exact (infer_member_kind_spec exMapSelfMember).2.2.2.1 (by decide) (Or.inl (by decide))
  · exact (infer_member_kind_spec exClassMember).2.2.2.2 (by decide) (by decide) (by decide)

theorem beqComm (a b : String) : (a == b) = (b == a) := by
  by_cases h : a = b
  · simp [h]
  · simp [beq_eq_false_iff_ne.mpr h, beq_eq_false_iff_ne.mpr (Ne.symm h)]

theorem bump_of_mem {c : List (String × Nat)} {o : String}
    (h : c.any (fun kv => kv.1 == o) = true) :
    bump c o = c.map (fun kv => if kv.1 == o then (kv.1, kv.2 + 1) else kv) := by
  simp only [bump, h, if_true]

theorem bump_of_not_mem {c : List (String × Nat)} {o : String}
    (h : c.any (fun kv => kv.1 == o) = false) :
    bump c o = c ++ [(o, 1)] := by
  simp only [bump, h, Bool.false_eq_true, if_false]

theorem any_key_map_bump (o k : String) :
    ∀ d : List (String × Nat),
      ((d.map (fun kv => if kv.1 == o then (kv.1, kv.2 + 1) else kv)).any
          (fun kv => kv.1 == k))
        = d.any (fun kv => kv.1 == k) := by
  intro d
  induction d with
  | nil => rfl
  | cons kv t ih =>
      simp only [List.map_cons, List.any_cons, ih]
      by_cases hko : kv.1 = o
      · simp [hko]
      · simp [beq_eq_false_iff_ne.mpr hko]

theorem bump_hasKey (c : List (String × Nat)) (o k : String) :
    (bump c o).any (fun kv => kv.1 == k) = (c.any (fun kv => kv.1 == k) || (o == k)) := by
  cases hmem : c.any (fun kv => kv.1 == o) with
  | true =>
      rw [bump_of_mem hmem, any_key_map_bump]
      cases hok : (o == k) with
      | true =>
          have hk : o = k := by rwa [beq_iff_eq] at hok
          subst hk
          simp [hmem]
      | false => simp
  | false =>
      rw [bump_of_not_mem hmem, List.any_append]
      simp [List.any_cons]

theorem firstOccs_nil : firstOccs [] = [] := by
  rw [firstOccs]

theorem firstOccs_cons (a : String) (l : List String) :
    firstOccs (a :: l) = a :: firstOccs (l.filter (fun x => x != a)) := by
  rw [firstOccs]

theorem firstOccs_mem_aux :
    ∀ (n : Nat) (l : List String), l.length ≤ n → ∀ k, k ∈ firstOccs l → k ∈ l := by
  intro n
  induction n with
  | zero =>
      intro l hl k hk
      have hnil : l = [] := List.eq_nil_of_length_eq_zero (Nat.le_zero.mp hl)
      subst hnil
      rw [firstOccs_nil] at hk
      exact absurd hk (List.not_mem_nil k)
  | succ n ih =>
      intro l hl k hk
      cases l with
      | nil =>
          rw [firstOccs_nil] at hk
          exact absurd hk (List.not_mem_nil k)
      | cons a t =>
          rw [firstOccs_cons] at hk
          rcases List.mem_cons.mp hk with h | h
          · subst h
            exact List.mem_cons_self _ _
          · have hlen : (t.filter (fun x => x != a)).length ≤ n := by
              have h1 : t.length ≤ n := by
                simpa using Nat.le_of_succ_le_succ (by simpa using hl)
              exact le_trans (List.length_filter_le _ _) h1
            have := ih _ hlen k h
            exact List.mem_cons_of_mem _ (List.mem_filter.mp this).1

theorem firstOccs_mem {l : List String} {k : String} (h : k ∈ firstOccs l) : k ∈ l :=
  firstOccs_mem_aux l.length l (le_refl _) k h

theorem foldl_bump_eq :
    ∀ (obs : List String) (c : List (String × Nat)),
      obs.foldl bump c
        = c.map (fun kv => (kv.1, kv.2 + obs.count kv.1))
          ++ (firstOccs (obs.filter (fun k => !(c.any (fun kv => kv.1 == k))))).map
              (fun k => (k, obs.count k)) := by
  intro obs
  induction obs with
  | nil =>
      intro c
      simp [firstOccs_nil, List.count_nil]
  | cons o rest ih =>
      intro c
      rw [List.foldl_cons, ih (bump c o)]
      cases hmem : c.any (fun kv => kv.1 == o) with
      | true =>
          rw [bump_of_mem hmem, List.map_map]
          have h1 : c.map ((fun kv : String × Nat => (kv.1, kv.2 + rest.count kv.1))
                ∘ (fun kv => if kv.1 == o then (kv.1, kv.2 + 1) else kv))
              = c.map (fun kv => (kv.1, kv.2 + (o :: rest).count kv.1)) := by
            apply List.map_congr_left
            intro kv _
            by_cases hko : kv.1 = o
            · have hbeq : (kv.1 == o) = true := beq_iff_eq.mpr hko
              have hbeq' : (o == kv.1) = true := by rw [beqComm]; exact hbeq
              simp only [Function.comp, hbeq, if_true, List.count_cons, hbeq',
                Prod.mk.injEq, true_and]
              omega
            · have hbeq : (kv.1 == o) = false := beq_eq_false_iff_ne.mpr hko
              have hbeq' : (o == kv.1) = false := by rw [beqComm]; exact hbeq
              simp only [Function.comp, hbeq, Bool.false_eq_true, if_false, List.count_cons,
                hbeq', Prod.mk.injEq, true_and]
              omega
          have h2 : rest.filter (fun k =>
                !((c.map (fun kv => if kv.1 == o then (kv.1, kv.2 + 1) else kv)).any
                  (fun kv => kv.1 == k)))
              = rest.filter (fun k => !(c.any (fun kv => kv.1 == k))) := by
            apply List.filter_congr
            intro k _
            rw [any_key_map_bump]
          have h3 : (o :: rest).filter (fun k => !(c.any (fun kv => kv.1 == k)))
              = rest.filter (fun k => !(c.any (fun kv => kv.1 == k))) := by
            rw [List.filter_cons]
            simp [hmem]
          have h4 : (firstOccs (rest.filter (fun k => !(c.any (fun kv => kv.1 == k))))).map
                (fun k => (k, rest.count k))
              = (firstOccs (rest.filter (fun k => !(c.any (fun kv => kv.1 == k))))).map
                (fun k => (k, (o :: rest).count k)) := by
            apply List.map_congr_left
            intro k hk
            have hkr := List.mem_filter.mp (firstOccs_mem hk)
            have hko : (o == k) = false := by
              cases hok : (o == k) with
              | false => rfl
              | true =>
                  have : o = k := by rwa [beq_iff_eq] at hok
                  subst this
                  rw [hmem] at hkr
                  simpa using hkr.2
            rw [List.count_cons, hko]
            simp
          rw [h1, h2, h3, h4]
      | false =>
          rw [bump_of_not_mem hmem, List.map_append]
          have h1 : c.map (fun kv : String × Nat => (kv.1, kv.2 + rest.count kv.1))
              = c.map (fun kv => (kv.1, kv.2 + (o :: rest).count kv.1)) := by
            apply List.map_congr_left
            intro kv hkv
            have hbeq : (kv.1 == o) = false := by
              rw [List.any_eq_false] at hmem
              exact Bool.eq_false_iff.mpr (hmem kv hkv)
            have hbeq' : (o == kv.1) = false := by rw [beqComm]; exact hbeq
            rw [List.count_cons, hbeq']
            simp
          have h3 : (o :: rest).filter (fun k => !(c.any (fun kv => kv.1 == k)))
              = o :: rest.filter (fun k => !(c.any (fun kv => kv.1 == k))) := by
            rw [List.filter_cons]
            simp [hmem]
          have h2 : (rest.filter (fun k => !(c.any (fun kv => kv.1 == k)))).filter
                (fun x => x != o)
              = rest.filter (fun k => !((c ++ [(o, 1)]).any (fun kv => kv.1 == k))) := by
            rw [List.filter_filter]
            apply List.filter_congr
            intro k _
            rw [List.any_append]
            simp only [List.any_cons, List.any_nil, Bool.or_false, Bool.not_or]
            rw [Bool.and_comm]
            have hbne : (k != o) = !(o == k) := by rw [bne, beqComm]
            rw [hbne]
          have h5 : (firstOccs (rest.filter
                (fun k => !((c ++ [(o, 1)]).any (fun kv => kv.1 == k))))).map
                (fun k => (k, rest.count k))
              = (firstOccs (rest.filter
                (fun k => !((c ++ [(o, 1)]).any (fun kv => kv.1 == k))))).map
                (fun k => (k, (o :: rest).count k)) := by
            apply List.map_congr_left
            intro k hk
            have hkr := List.mem_filter.mp (firstOccs_mem hk)
            have hnotany := hkr.2
            rw [List.any_append] at hnotany
            simp only [List.any_cons, List.any_nil, Bool.or_false, Bool.not_or,
              Bool.and_eq_true, Bool.not_eq_true'] at hnotany
            rw [List.count_cons, hnotany.2]
            simp
          have hcnt : (o :: rest).count o = rest.count o + 1 := by
            rw [List.count_cons]
            simp
          rw [h1, h5, h3, firstOccs_cons, h2]
          simp only [List.map_cons, List.map_nil, List.append_assoc, List.singleton_append,
            List.nil_append]
          rw [hcnt, Nat.add_comm 1 (rest.count o)]

theorem pick_foldl_spec :
    ∀ (rest : List (String × Nat)) (b : String × Nat),
      ∃ l1 l2,
        b :: rest
            = l1 ++ (rest.foldl (fun best x => if best.2 < x.2 then x else best) b) :: l2
          ∧ (∀ kv ∈ l1,
              kv.2 < (rest.foldl (fun best x => if best.2 < x.2 then x else best) b).2)
          ∧ (∀ kv ∈ b :: rest,
              kv.2 ≤ (rest.foldl (fun best x => if best.2 < x.2 then x else best) b).2) := by
  intro rest
  induction rest with
  | nil =>
      intro b
      refine ⟨[], [], rfl, by simp, ?_⟩
      intro kv hkv
      rw [List.mem_singleton] at hkv
      subst hkv
      exact le_refl _
  | cons x rest' ih =>
      intro b
      simp only [List.foldl_cons]
      by_cases hbx : b.2 < x.2
      · rw [if_pos hbx]
        obtain ⟨l1, l2, heq, hlt, hle⟩ := ih x
        set M := rest'.foldl (fun best x => if best.2 < x.2 then x else best) x with hM
        refine ⟨b :: l1, l2, ?_, ?_, ?_⟩
        · rw [List.cons_append, ← heq]
        · intro kv hkv
          rcases List.mem_cons.mp hkv with rfl | h
          · exact lt_of_lt_of_le hbx (hle x (List.mem_cons_self _ _))
          · exact hlt kv h
        · intro kv hkv
          rcases List.mem_cons.mp hkv with rfl | h
          · exact le_trans (le_of_lt hbx) (hle x (List.mem_cons_self _ _))
          · exact hle kv h
      · rw [if_neg hbx]
        obtain ⟨l1, l2, heq, hlt, hle⟩ := ih b
        set M := rest'.foldl (fun best x => if best.2 < x.2 then x else best) b with hM
        cases l1 with
        | nil =>
            simp only [List.nil_append] at heq
            have hb : b = M := (List.cons.injEq _ _ _ _).mp heq |>.1
            have hrest : rest' = l2 := (List.cons.injEq _ _ _ _).mp heq |>.2
            refine ⟨[], x :: rest', ?_, by simp, ?_⟩
            · rw [List.nil_append, ← hb]
            · intro kv hkv
              rcases List.mem_cons.mp hkv with rfl | h
              · exact hle kv (List.mem_cons_self _ _)
              · rcases List.mem_cons.mp h with rfl | h2
                · exact le_trans (le_of_not_lt hbx) (hle b (List.mem_cons_self _ _))
                · exact hle kv (List.mem_cons_of_mem _ h2)
        | cons p l1' =>
            simp only [List.cons_append] at heq
            have hb : b = p := (List.cons.injEq _ _ _ _).mp heq |>.1
            have hrest : rest' = l1' ++ M :: l2 := (List.cons.injEq _ _ _ _).mp heq |>.2
            refine ⟨b :: x :: l1', l2, ?_, ?_, ?_⟩
            · conv_lhs => rw [hrest]
              simp [List.cons_append]
            · intro kv hkv
              rcases List.mem_cons.mp hkv with rfl | h
              · rw [hb]
                exact hlt p (List.mem_cons_self _ _)
              · rcases List.mem_cons.mp h with rfl | h2
                · refine lt_of_le_of_lt (le_of_not_lt hbx) ?_
                  rw [hb]
                  exact hlt p (List.mem_cons_self _ _)
                · exact hlt kv (List.mem_cons_of_mem _ h2)
            · intro kv hkv
              rcases List.mem_cons.mp hkv with rfl | h
              · exact hle kv (List.mem_cons_self _ _)
              · rcases List.mem_cons.mp h with rfl | h2
                · exact le_trans (le_of_not_lt hbx) (hle b (List.mem_cons_self _ _))
                · exact hle kv (List.mem_cons_of_mem _ h2)

theorem find?_of_prefix_false {α : Type} (p : α → Bool) :
    ∀ (l1 : List α) (m : α) (l2 : List α), (∀ x ∈ l1, p x = false) → p m = true →
      (l1 ++ m :: l2).find? p = some m := by
  intro l1
  induction l1 with
  | nil =>
      intro m l2 _ hm
      rw [List.nil_append]
      exact List.find?_cons_of_pos _ hm
  | cons a t ih =>
      intro m l2 hall hm
      have ha : p a = false := hall a (List.mem_cons_self _ _)
      rw [List.cons_append, List.find?_cons_of_neg _ (by simp [ha])]
      exact ih m l2 (fun x hx => hall x (List.mem_cons_of_mem a hx)) hm

theorem find?_allmax (l l1 l2 : List (String × Nat)) (M : String × Nat)
    (heq : l = l1 ++ M :: l2)
    (hlt : ∀ kv ∈ l1, kv.2 < M.2) (hle : ∀ kv ∈ l, kv.2 ≤ M.2) :
    l.find? (fun kv => l.all (fun kv2 => decide (kv2.2 ≤ kv.2))) = some M := by
  have hPm : (l.all (fun kv2 => decide (kv2.2 ≤ M.2))) = true := by
    rw [List.all_eq_true]
    intro kv hkv
    exact decide_eq_true (hle kv hkv)
  have hMmem : M ∈ l := by
    rw [heq]
    exact List.mem_append_right l1 (List.mem_cons_self _ _)
  have hPl1 : ∀ x ∈ l1, (l.all (fun kv2 => decide (kv2.2 ≤ x.2))) = false := by
    intro x hx
    rw [Bool.eq_false_iff]
    intro hT
    have hMle : M.2 ≤ x.2 := of_decide_eq_true (List.all_eq_true.mp hT M hMmem)
    have := hlt x hx
    omega
  rw [heq] at hPl1 hPm ⊢
  exact find?_of_prefix_false _ l1 M l2 hPl1 hPm

theorem maxByCount_eq_firstWithMax :
    ∀ l : List (String × Nat), maxByCount l = (firstWithMax l).map Prod.fst := by
  intro l
  cases l with
  | nil => rfl
  | cons b rest =>
      obtain ⟨l1, l2, heq, hlt, hle⟩ := pick_foldl_spec rest b
      rw [firstWithMax, find?_allmax (b :: rest) l1 l2 _ heq hlt hle]
      rfl

theorem detect_counts_eq (fs : VFS) :
    ∀ (roots : List FsPath) (init : List (String × Nat)),
      roots.foldl (fun counts r =>
        match ancestor_with_version_txt fs r with
        | none => counts
        | some base =>
            let line := firstNonBlankLine (fs.versionLines base)
            if line == "" then counts else bump counts line) init
      = (roots.filterMap (candidateVersion fs)).foldl bump init := by
  intro roots
  induction roots with
  | nil => intro init; rfl
  | cons r rest ih =>
      intro init
      rw [List.foldl_cons, List.filterMap_cons]
      cases hanc : ancestor_with_version_txt fs r with
      | none =>
          simp only [candidateVersion, hanc]
          exact ih init
      | some base =>
          cases hline : (firstNonBlankLine (fs.versionLines base) == "") with
          | true =>
              simp only [candidateVersion, hanc, hline, if_true]
              exact ih init
          | false =>
              simp only [candidateVersion, hanc, hline, Bool.false_eq_true, if_false,
                List.foldl_cons]
              exact ih (bump init (firstNonBlankLine (fs.versionLines base)))

theorem counts_eq_specTally (obs : List String) :
    obs.foldl bump [] = specTally obs := by
  rw [foldl_bump_eq]
  have hfil : obs.filter (fun k => !(([] : List (String × Nat)).any (fun kv => kv.1 == k)))
      = obs := by
    have : ∀ k ∈ obs, (!(([] : List (String × Nat)).any (fun kv => kv.1 == k)))
        = (fun _ : String => true) k := by
      intro k _
      simp
    rw [List.filter_congr this, List.filter_true]
  rw [hfil, specTally]
  simp

/-- C6: `detect_rimworld_version` refines the specified tally-and-pick: it
returns the first entry of the insertion-ordered tally (distinct candidate
lines in order of first encounter, each with its occurrence count) whose
count is at least every other count — the most frequent candidate, ties
resolved to the first encountered; it returns `none` exactly when no input
path contributes a candidate; and the 1.4/1.4/1.5 example resolves to 1.4. -/
theorem detect_rimworld_version_spec :
    (∀ (fs : VFS) (roots : List FsPath),
        detect_rimworld_version fs roots
          = (firstWithMax (specTally (observations fs roots))).map Prod.fst)
    ∧ (∀ (fs : VFS) (roots : List FsPath),
        detect_rimworld_version fs roots = none ↔ observations fs roots = [])
    ∧ detect_rimworld_version exVFS exRoots = some "1.4" := by
  have hmain : ∀ (fs : VFS) (roots : List FsPath),
      detect_rimworld_version fs roots
        = (firstWithMax (specTally (observations fs roots))).map Prod.fst := by
    intro fs roots
    have hobs : observations fs roots = roots.filterMap (candidateVersion fs) := rfl
    rw [detect_rimworld_version, detect_counts_eq fs roots [], counts_eq_specTally, hobs]
    cases hO : roots.filterMap (candidateVersion fs) with
    | nil => simp [specTally, firstOccs_nil, firstWithMax]
    | cons o t =>
        have hne : (specTally (o :: t)).isEmpty = false := by
          rw [specTally, firstOccs_cons]
          rfl
        simp only [hne, Bool.false_eq_true, if_false]
        exact maxByCount_eq_firstWithMax _
  refine ⟨hmain, ?_, by decide⟩
  intro fs roots
  have hobs : observations fs roots = roots.filterMap (candidateVersion fs) := rfl
  rw [detect_rimworld_version, detect_counts_eq fs roots [], counts_eq_specTally, hobs]
  cases hO : roots.filterMap (candidateVersion fs) with
  | nil => simp [specTally, firstOccs_nil]
  | cons o t =>
      have hne : (specTally (o :: t)).isEmpty = false := by
        rw [specTally, firstOccs_cons]
        rfl
      simp only [hne, Bool.false_eq_true, if_false]
      constructor
      · intro hmax
        rw [specTally, firstOccs_cons, List.map_cons, maxByCount] at hmax
        exact Option.noConfusion hmax
      · intro hc
        exact List.noConfusion hc

/-- C7: a parse failure is recoverable and document-scoped: the error is
logged with the file identity and message, items and schema state are
untouched, and the document loop continues with the next document of the
same mod and layer. -/
theorem parse_failure_document_scoped :
    ∀ (st : BuildSt) (p : FsPath) (e : String),
      (processDoc st p (Except.error e)).items = st.items
      ∧ (processDoc st p (Except.error e)).meta = st.meta
      ∧ (processDoc st p (Except.error e)).log
          = st.log ++ ["  ! Error in " ++ pathStr p ++ ": " ++ ("Parse error: " ++ e)]
      ∧ (∀ rest : List FileDoc, aboutSkip p = false →
          build_docs st ((p, Except.error e) :: rest)
            = build_docs (processDoc st p (Except.error e)) rest) := by
  intro st p e
  have hdoc : processDoc st p (Except.error e)
      = { st with
          log := st.log ++ ["  ! Error in " ++ pathStr p ++ ": " ++ ("Parse error: " ++ e)] } :=
    rfl
  refine ⟨by rw [hdoc], by rw [hdoc], by rw [hdoc], ?_⟩
  intro rest hskip
  rw [build_docs, List.foldl_cons]
  have hpf : processFile st (p, Except.error e) = processDoc st p (Except.error e) := by
    simp only [processFile, hskip, Bool.false_eq_true, if_false]
  rw [hpf]
  rfl

theorem parse_failure_document_scoped_witness :
    build_docs exSt0 [(["m1", "Defs", "a.xml"], Except.error "boom")]
      = { exSt0 with log := ["  ! Error in m1/Defs/a.xml: Parse error: boom"] } := by
  rw [(parse_failure_document_scoped exSt0 ["m1", "Defs", "a.xml"] "boom").2.2.2 []
    (by decide)]
  decide

/-- C10: a file named `About.xml` (case-insensitively) whose parent
directory is named `About` (case-insensitively) is skipped before parsing
and yields nothing, whatever the document would contain; an `About.xml`
anywhere else is processed like any other candidate document. -/
theorem about_xml_skipped :
    ∀ (st : BuildSt) (p : FsPath) (doc : Except String XElem),
      (pyLower (fileName p) = "about.xml" → pyLower (parentName p) = "about" →
          processFile st (p, doc) = st)
      ∧ (¬ (pyLower (fileName p) = "about.xml" ∧ pyLower (parentName p) = "about") →
          processFile st (p, doc) = processDoc st p doc) := by
  intro st p doc
  constructor
  · intro h1 h2
    have hskip : aboutSkip p = true := by
      rw [aboutSkip]
      simp [h1, h2]
    simp only [processFile, hskip, if_true]
  · intro hn
    have hskip : aboutSkip p = false := by
      rw [aboutSkip, Bool.eq_false_iff]
      intro hT
      rw [Bool.and_eq_true] at hT
      exact hn ⟨by rw [← beq_iff_eq]; exact hT.1, by rw [← beq_iff_eq]; exact hT.2⟩
    simp only [processFile, hskip, Bool.false_eq_true, if_false]

theorem about_xml_skipped_witness :
    processFile exSt0 (["m1", "About", "About.xml"], Except.ok exDefsRoot) = exSt0
    ∧ processFile exSt0 (["m1", "Defs", "About.xml"], Except.ok exDefsRoot)
        = processDoc exSt0 ["m1", "Defs", "About.xml"] (Except.ok exDefsRoot)
    ∧ (processDoc exSt0 ["m1", "Defs", "About.xml"] (Except.ok exDefsRoot)).items.length = 2 := by
  refine ⟨?_, ?_, ?_⟩
  · exact (about_xml_skipped exSt0 _ _).1 (by decide) (by decide)
  · exact (about_xml_skipped exSt0 _ _).2 (by decide)
  · decide

theorem sizeOf_mem_forest : ∀ (ts : FForest) (t : FTree), t ∈ ts.toList → sizeOf t < sizeOf ts
  | .fnil, t, h => by
      rw [FForest.toList] at h
      exact absurd h (List.not_mem_nil t)
  | .fcons t0 rest, t, h => by
      rw [FForest.toList] at h
      rcases List.mem_cons.mp h with rfl | h2
      · simp
        omega
      · have := sizeOf_mem_forest rest t h2
        simp
        omega

theorem mem_walkForest : ∀ (ts : FForest) (prune : List String) (pfx p : FsPath),
    p ∈ walkForest prune pfx ts →
    ∃ t, t ∈ ts.toList ∧ prunedDir prune t = false
      ∧ p ∈ iter_xml_files_pruned prune pfx t
  | .fnil, prune, pfx, p, h => by
      rw [walkForest] at h
      exact absurd h (List.not_mem_nil p)
  | .fcons t rest, prune, pfx, p, h => by
      rw [walkForest] at h
      rcases List.mem_append.mp h with h1 | h2
      · cases hpr : prunedDir prune t with
        | true =>
            rw [hpr] at h1
            simp at h1
        | false =>
            rw [hpr] at h1
            simp only [Bool.false_eq_true, if_false] at h1
            exact ⟨t, List.mem_cons_self _ _, hpr, h1⟩
      · obtain ⟨t', ht', hp', hm'⟩ := mem_walkForest rest prune pfx p h2
        exact ⟨t', List.mem_cons_of_mem _ ht', hp', hm'⟩

theorem walk_shape_aux : ∀ (n : Nat) (t : FTree), sizeOf t ≤ n →
    ∀ (prune : List String) (pfx p : FsPath), p ∈ iter_xml_files_pruned prune pfx t →
    ∃ q f, p = pfx ++ [t.name] ++ q ++ [f]
      ∧ pyEndsWith (pyLower f) ".xml" = true
      ∧ ∀ s ∈ q, prune.contains (pyLower s) = false := by
  intro n
  induction n with
  | zero =>
      intro t hsz
      cases t with
      | node nm files subs =>
          simp at hsz
  | succ n ih =>
      intro t hsz prune pfx p hp
      cases t with
      | node nm files subs =>
          simp only [iter_xml_files_pruned] at hp
          rcases List.mem_append.mp hp with h1 | h2
          · rw [List.mem_filterMap] at h1
            obtain ⟨fn, hfn, hsome⟩ := h1
            cases hcond : pyEndsWith (pyLower fn) ".xml" with
            | false =>
                rw [hcond] at hsome
                simp at hsome
            | true =>
                rw [hcond] at hsome
                simp only [if_true] at hsome
                refine ⟨[], fn, ?_, hcond, ?_⟩
                · rw [← Option.some.inj hsome]
                  simp [FTree.name]
                · intro s hs
                  exact absurd hs (List.not_mem_nil s)
          · obtain ⟨t', ht', hpr, hm'⟩ := mem_walkForest subs prune (pfx ++ [nm]) p h2
            have hsz' : sizeOf t' ≤ n := by
              have h1 := sizeOf_mem_forest subs t' ht'
              have h2' : sizeOf subs < sizeOf (FTree.node nm files subs) := by
                simp
              omega
            obtain ⟨q, f, hpeq, hxml, hq⟩ := ih t' hsz' prune (pfx ++ [nm]) p hm'
            refine ⟨t'.name :: q, f, ?_, hxml, ?_⟩
            · rw [hpeq]
              simp [FTree.name, List.append_assoc]
            · intro s hs
              rcases List.mem_cons.mp hs with rfl | h3
              · simpa [prunedDir] using hpr
              · exact hq s h3

/-- C8 counterexample: with `languages` in the prune set and the base
directory itself named `Languages`, the pruned walk still yields
`Languages/strings.xml`, a candidate-document path containing the pruned
name (case-insensitively) as a path segment: the base directory is never
subject to the dirnames filter, so the claim as stated fails. -/
theorem iter_xml_files_pruned_claim_counterexample :
    iter_xml_files_pruned ["languages"] [] exLangTree = [["Languages", "strings.xml"]]
    ∧ ¬ (∀ p ∈ iter_xml_files_pruned ["languages"] [] exLangTree,
          ∀ s ∈ p, pyLower s ≠ "languages") := by
  constructor
  · decide
  · decide

/-- C8 (amended): every yielded file has a case-insensitive `.xml`
extension, and for a lowercase prune-set name that does not itself end in
`.xml`, no yielded path contains that name case-insensitively as a
segment strictly below the base directory; the base directory itself is
not subject to pruning. -/
theorem iter_xml_files_pruned_spec :
    ∀ (prune : List String) (t : FTree) (name : String) (p : FsPath),
      name ∈ prune → pyLower name = name → pyEndsWith name ".xml" = false →
      p ∈ iter_xml_files_pruned prune [] t →
      (∃ dirs f, p = dirs ++ [f] ∧ pyEndsWith (pyLower f) ".xml" = true)
      ∧ ∀ s ∈ p.drop 1, pyLower s ≠ name := by
  intro prune t name p hmem hlow hnx hp
  obtain ⟨q, f, hpeq, hxml, hq⟩ := walk_shape_aux (sizeOf t) t (le_refl _) prune [] p hp
  constructor
  · exact ⟨t.name :: q, f, by rw [hpeq]; simp, hxml⟩
  · intro s hs
    have hdrop : p.drop 1 = q ++ [f] := by
      rw [hpeq]
      simp
    rw [hdrop] at hs
    rcases List.mem_append.mp hs with h1 | h2
    · intro hcon
      have hfalse := hq s h1
      rw [hcon] at hfalse
      have htrue : prune.contains name = true := by simpa using hmem
      rw [htrue] at hfalse
      exact Bool.noConfusion hfalse
    · rw [List.mem_singleton] at h2
      subst h2
      intro hcon
      rw [hcon] at hxml
      rw [hxml] at hnx
      exact Bool.noConfusion hnx

theorem iter_xml_files_pruned_spec_witness :
    (∃ dirs f, (["Mods", "Defs", "d.xml"] : FsPath) = dirs ++ [f]
        ∧ pyEndsWith (pyLower f) ".xml" = true)
    ∧ ∀ s ∈ (["Mods", "Defs", "d.xml"] : FsPath).drop 1, pyLower s ≠ "languages" :=
  iter_xml_files_pruned_spec ["languages"] exModTree "languages" ["Mods", "Defs", "d.xml"]
    (by decide) (by decide) (by decide) (by decide)

theorem foldl_addVal_attrs : ∀ (a : List (String × String)) (seen : TagMap),
    (a.map (fun kv => (kv.1, some kv.2))).foldl (fun s kv => addVal s kv.1 kv.2) seen
      = a.foldl (fun acc kv => addVal acc kv.1 (some kv.2)) seen := by
  intro a
  induction a with
  | nil => intro seen; rfl
  | cons kv rest ih =>
      intro seen
      simp only [List.map_cons, List.foldl_cons]
      exact ih _

theorem walk_foldl_aux : ∀ n : Nat,
    (∀ e : XElem, sizeOf e ≤ n → ∀ seen : TagMap,
        walkElem seen e = (obsElem e).foldl (fun s kv => addVal s kv.1 kv.2) seen)
    ∧ (∀ ks : XKids, sizeOf ks ≤ n → ∀ seen : TagMap,
        walkKids seen ks = (obsKids ks).foldl (fun s kv => addVal s kv.1 kv.2) seen) := by
  intro n
  induction n with
  | zero =>
      constructor
      · intro e hsz
        cases e with
        | mk t a x ch =>
            exfalso
            simp only [XElem.mk.sizeOf_spec] at hsz
            omega
      · intro ks hsz seen
        cases ks with
        | nil => rfl
        | cons c rest =>
            exfalso
            simp only [XKids.cons.sizeOf_spec] at hsz
            omega
  | succ n ih =>
      constructor
      · intro e hsz seen
        cases e with
        | mk t a x ch =>
            have hch : sizeOf ch ≤ n := by
              simp only [XElem.mk.sizeOf_spec] at hsz
              omega
            simp only [walkElem, obsElem]
            rw [List.foldl_append, List.foldl_append, foldl_addVal_attrs,
              List.foldl_cons, List.foldl_nil]
            exact ih.2 ch hch _
      · intro ks hsz seen
        cases ks with
        | nil => rfl
        | cons c rest =>
            have hc : sizeOf c ≤ n := by
              simp only [XKids.cons.sizeOf_spec] at hsz
              omega
            have hr : sizeOf rest ≤ n := by
              simp only [XKids.cons.sizeOf_spec] at hsz
              omega
            simp only [walkKids, obsKids]
            rw [List.foldl_append, ih.1 c hc seen]
            exact ih.2 rest hr _

theorem collect_tag_map_eq (e : XElem) :
    collect_tag_map e
      = ((obsElem e).foldl (fun s kv => addVal s kv.1 kv.2) []).map
          (fun kv => (kv.1, sortStrings kv.2)) := by
  rw [collect_tag_map, (walk_foldl_aux (sizeOf e)).1 e (le_refl _)]

theorem addVal_inv (obs : List (String × String)) (seen : TagMap) (k : String)
    (val : Option String)
    (hseen : ∀ kv ∈ seen, kv.2.Nodup ∧ ∀ v ∈ kv.2, ∃ s, (kv.1, s) ∈ obs ∧ v = truncVal s)
    (hval : ∀ s, val = some s → pyStrip s ≠ "" → (k, pyStrip s) ∈ obs) :
    ∀ kv ∈ addVal seen k val,
      kv.2.Nodup ∧ ∀ v ∈ kv.2, ∃ s, (kv.1, s) ∈ obs ∧ v = truncVal s := by
  cases val with
  | none =>
      intro kv hkv
      exact hseen kv hkv
  | some v =>
      cases hs : (pyStrip v == "") with
      | true =>
          have haddeq : addVal seen k (some v) = seen := by
            simp only [addVal, hs, if_true]
          rw [haddeq]
          exact hseen
      | false =>
          have hne : pyStrip v ≠ "" := beq_eq_false_iff_ne.mp hs
          have hobs : (k, pyStrip v) ∈ obs := hval v rfl hne
          cases hmem : seen.any (fun kv => kv.1 == k) with
          | true =>
              have haddeq : addVal seen k (some v)
                  = seen.map (fun kv => if kv.1 == k
                      then (kv.1, if truncVal (pyStrip v) ∈ kv.2 then kv.2
                            else kv.2 ++ [truncVal (pyStrip v)])
                      else kv) := by
                simp only [addVal, hs, Bool.false_eq_true, if_false, hmem, if_true]
              rw [haddeq]
              intro kv hkv
              rw [List.mem_map] at hkv
              obtain ⟨kv0, hkv0, heq⟩ := hkv
              obtain ⟨hnd0, hvals0⟩ := hseen kv0 hkv0
              by_cases hk0 : kv0.1 = k
              · have hbeq : (kv0.1 == k) = true := beq_iff_eq.mpr hk0
                rw [if_pos (by rw [hbeq])] at heq
                by_cases hin : truncVal (pyStrip v) ∈ kv0.2
                · rw [if_pos hin] at heq
                  rw [← heq]
                  exact ⟨hnd0, hvals0⟩
                · rw [if_neg hin] at heq
                  rw [← heq]
                  constructor
                  · rw [List.nodup_append]
                    refine ⟨hnd0, List.nodup_singleton _, ?_⟩
                    intro a ha hb
                    rw [List.mem_singleton] at hb
                    subst hb
                    exact hin ha
                  · intro v' hv'
                    rcases List.mem_append.mp hv' with h1 | h2
                    · exact hvals0 v' h1
                    · rw [List.mem_singleton] at h2
                      subst h2
                      exact ⟨pyStrip v, hk0 ▸ hobs, rfl⟩
              · have hbeq : (kv0.1 == k) = false := beq_eq_false_iff_ne.mpr hk0
                rw [if_neg (by rw [hbeq]; exact Bool.false_ne_true)] at heq
                rw [← heq]
                exact ⟨hnd0, hvals0⟩
          | false =>
              have haddeq : addVal seen k (some v)
                  = seen ++ [(k, [truncVal (pyStrip v)])] := by
                simp only [addVal, hs, Bool.false_eq_true, if_false, hmem]
              rw [haddeq]
              intro kv hkv
              rcases List.mem_append.mp hkv with h1 | h2
              · exact hseen kv h1
              · rw [List.mem_singleton] at h2
                subst h2
                refine ⟨List.nodup_singleton _, ?_⟩
                intro v' hv'
                rw [List.mem_singleton] at hv'
                subst hv'
                exact ⟨pyStrip v, hobs, rfl⟩

theorem foldl_addVal_inv (obsRef : List (String × String)) :
    ∀ (l : List (String × Option String)) (seen : TagMap),
      (∀ kv ∈ l, ∀ s, kv.2 = some s → pyStrip s ≠ "" → (kv.1, pyStrip s) ∈ obsRef) →
      (∀ kv ∈ seen, kv.2.Nodup ∧ ∀ v ∈ kv.2, ∃ s, (kv.1, s) ∈ obsRef ∧ v = truncVal s) →
      ∀ kv ∈ l.foldl (fun s kv => addVal s kv.1 kv.2) seen,
        kv.2.Nodup ∧ ∀ v ∈ kv.2, ∃ s, (kv.1, s) ∈ obsRef ∧ v = truncVal s := by
  intro l
  induction l with
  | nil => exact fun seen _ hseen => hseen
  | cons p rest ih =>
      intro seen hl hseen
      rw [List.foldl_cons]
      refine ih _ (fun kv hkv => hl kv (List.mem_cons_of_mem _ hkv)) ?_
      exact addVal_inv obsRef seen p.1 p.2 hseen (hl p (List.mem_cons_self _ _) )

theorem obs_mem_trimmed (e : XElem) :
    ∀ kv ∈ obsElem e, ∀ s, kv.2 = some s → pyStrip s ≠ "" →
      (kv.1, pyStrip s) ∈ observedValues e := by
  intro kv hkv s hs hnb
  rw [observedValues, trimmedObs, List.mem_filterMap]
  refine ⟨kv, hkv, ?_⟩
  rw [hs]
  have hb : (pyStrip s == "") = false := beq_eq_false_iff_ne.mpr hnb
  simp [hb]

theorem insertSorted_perm : ∀ (x : String) (l : List String), (insertSorted x l).Perm (x :: l) := by
  intro x l
  induction l with
  | nil => exact List.Perm.refl _
  | cons y ys ih =>
      rw [insertSorted]
      by_cases h : pyStrLe x y
      · rw [if_pos h]
      · rw [if_neg h]
        exact List.Perm.trans (List.Perm.cons y ih) (List.Perm.swap x y ys)

theorem sortStrings_perm : ∀ l : List String, (sortStrings l).Perm l := by
  intro l
  induction l with
  | nil => exact List.Perm.refl _
  | cons x xs ih =>
      rw [sortStrings]
      exact List.Perm.trans (insertSorted_perm x (sortStrings xs)) (List.Perm.cons x ih)

set_option maxRecDepth 8000 in
/-- C9 counterexample: a 201-character observed value is stored as its
first 197 characters followed by a single ellipsis character — 198
characters in total, not the 200 characters the claim states. -/
theorem collect_tag_map_truncation_counterexample :
    collect_tag_map exLongElem = [("label", [longStored])]
    ∧ longText.length = 201
    ∧ longStored.length = 198
    ∧ ¬ longStored.length = 200 :=
  ⟨by decide, by decide, by decide, by decide⟩

/-- C9 (amended): every value stored in an item's tag map is a
deduplicated observed (stripped) text or attribute value; a value of at
most 200 characters is stored verbatim, and a longer one is stored as its
first 197 characters with a trailing ellipsis character appended (198
characters in total). -/
theorem collect_tag_map_values_spec :
    ∀ (e : XElem) (k : String) (vs : List String), (k, vs) ∈ collect_tag_map e →
      vs.Nodup
      ∧ ∀ v ∈ vs, ∃ s, (k, s) ∈ observedValues e ∧ v = truncVal s
          ∧ (s.length ≤ 200 → v = s)
          ∧ (200 < s.length →
              v = String.mk (s.data.take 197 ++ ['…']) ∧ v.length = 198) := by
  intro e k vs hmem
  rw [collect_tag_map_eq, List.mem_map] at hmem
  obtain ⟨kv0, hkv0, heq⟩ := hmem
  have hk : kv0.1 = k := congrArg Prod.fst heq
  have hv : sortStrings kv0.2 = vs := congrArg Prod.snd heq
  have hbase := foldl_addVal_inv (observedValues e) (obsElem e) [] (obs_mem_trimmed e)
      (fun kv hkv => absurd hkv (List.not_mem_nil kv)) kv0 hkv0
  obtain ⟨hnd, hvals⟩ := hbase
  constructor
  · rw [← hv]
    exact ((sortStrings_perm kv0.2).nodup_iff).mpr hnd
  · intro v hvmem
    have hvin : v ∈ kv0.2 := (sortStrings_perm kv0.2).mem_iff.mp (hv ▸ hvmem)
    obtain ⟨s, hsin, hveq⟩ := hvals v hvin
    refine ⟨s, hk ▸ hsin, hveq, ?_, ?_⟩
    · intro hle
      rw [hveq, truncVal, if_pos hle]
    · intro hgt
      rw [hveq, truncVal, if_neg (by omega)]
      refine ⟨rfl, ?_⟩
      show (s.data.take 197 ++ ['…']).length = 198
      rw [List.length_append, List.length_take]
      have hdl : s.data.length = s.length := rfl
      rw [hdl, min_eq_left (by omega)]
      rfl

theorem collect_tag_map_values_spec_witness :
    ("label", ["gun"]) ∈ collect_tag_map exShortElem
    ∧ (["gun"] : List String).Nodup
    ∧ ∀ v ∈ (["gun"] : List String), ∃ s, ("label", s) ∈ observedValues exShortElem
        ∧ v = truncVal s
        ∧ (s.length ≤ 200 → v = s)
        ∧ (200 < s.length →
            v = String.mk (s.data.take 197 ++ ['…']) ∧ v.length = 198) := by
  have h := collect_tag_map_values_spec exShortElem "label" ["gun"] (by decide)
  exact ⟨by decide, h.1, h.2⟩
